import Mathlib

/-!
Verification of the bucket-based spaced-repetition scheduler
(`src/PS1/src/algorithm.ts`).

The data model is embedded shallowly:
* a JS `Map<number, Set<Flashcard>>` becomes an association list
  `List (Nat × Finset Flashcard)` in insertion order, whose keys are
  distinct (`wf`), matching the `Map` representation invariant;
* a JS `Set<Flashcard>` becomes a `Finset Flashcard`;
* JS numbers used as counts/indices become `Nat` (they are non-negative
  integers throughout the scheduler), the `day` argument of `practice`
  becomes an `Int` since callers may pass negative days.
-/

/-- Modelled from the spec: the class `Flashcard` lives in
`src/PS1/src/flashcards.ts`, which is not part of the sources at hand.
The spec describes it as an immutable value with `front`, `back`, `hint`
and `tags` fields whose equality is semantic: "two flashcards are equal
when their semantic content allows set membership tests to succeed for
logically identical cards created with the same fields".  Structural
equality of the four fields realises exactly that. -/
structure Flashcard where
  front : String
  back : String
  hint : String
  tags : List String
deriving DecidableEq

/-- Modelled from the spec: the enumeration `AnswerDifficulty` is declared
in the missing `src/PS1/src/flashcards.ts`; the spec fixes its three values
`Wrong`, `Hard`, `Easy` and the tests use exactly these names. -/
inductive AnswerDifficulty where
  | Wrong
  | Hard
  | Easy
deriving DecidableEq

/-- A `BucketMap` (`Map<number, Set<Flashcard>>`) as an association list in
insertion order. -/
abbrev BucketMap := List (Nat × Finset Flashcard)

/-- The `Map` representation invariant: keys are pairwise distinct. -/
def wf (M : BucketMap) : Prop := (M.map Prod.fst).Nodup

/-- Card `c` is a member of the set stored at bucket index `b` of `M`. -/
def memAt (M : BucketMap) (b : Nat) (c : Flashcard) : Prop :=
  ∃ p ∈ M, p.1 = b ∧ c ∈ p.2

/-- The data-model invariant of the spec: a given flashcard appears in at
most one bucket at any time. -/
def singleMembership (M : BucketMap) : Prop :=
  ∀ b₁ b₂ c, memAt M b₁ c → memAt M b₂ c → b₁ = b₂

/-- `Map.get`: the set stored at key `i`, if any. -/
def findSet (M : BucketMap) (i : Nat) : Option (Finset Flashcard) :=
  match M with
  | [] => none
  | (k, s) :: rest => if k = i then some s else findSet rest i

/-- The search-and-delete loop of `update` (`algorithm.ts` lines 48-55):
walk the entries in iteration order, and at the first entry whose set
contains `card`, delete `card` from that set and record the bucket index;
return the resulting map together with the recorded index. -/
def removeCard : BucketMap → Flashcard → BucketMap × Option Nat
  | [], _ => ([], none)
  | (b, s) :: rest, c =>
    if c ∈ s then ((b, s.erase c) :: rest, some b)
    else
      let r := removeCard rest c
      ((b, s) :: r.1, r.2)

/-- The insertion step of `update` (`algorithm.ts` lines 68-71): if
`newBucket` is not a key, `Map.set` appends a fresh empty entry at the end
(insertion order); then the card is added to the set at `newBucket`. -/
def insertCard : BucketMap → Nat → Flashcard → BucketMap
  | [], b, c => [(b, {c})]
  | (k, s) :: rest, b, c =>
    if k = b then (k, insert c s) :: rest
    else (k, s) :: insertCard rest b c

/-- The conditional chain of `algorithm.ts` lines 61-66 computing the new
bucket index from the current one and the difficulty. -/
def newIdx (k : Nat) : AnswerDifficulty → Nat
  | .Wrong => 0
  | .Hard => k
  | .Easy => k + 1

/-- `update` (`algorithm.ts` lines 43-74): remove the card from the first
bucket holding it (current bucket defaults to 0 when not found), compute
the new bucket index and insert the card there. -/
def update (buckets : BucketMap) (card : Flashcard)
    (difficulty : AnswerDifficulty) : BucketMap :=
  let r := removeCard buckets card
  let currentBucket := r.2.getD 0
  insertCard r.1 (newIdx currentBucket difficulty) card

/-- `Math.max(...buckets.keys(), 0)` (`algorithm.ts` line 4). -/
def maxKey (M : BucketMap) : Nat :=
  M.foldl (fun a p => max a p.1) 0

/-- `toBucketSets` (`algorithm.ts` lines 3-15): build an array of
`maxKey + 1` empty sets, then overwrite position `bucket` with the stored
set for every entry of the map. -/
def toBucketSets (buckets : BucketMap) : List (Finset Flashcard) :=
  buckets.foldl (fun arr p => arr.set p.1 p.2)
    (List.replicate (maxKey buckets + 1) (∅ : Finset Flashcard))

/-- The scan state of `getBucketRange`: current index, running
`minBucket` and `maxBucket` options. -/
def rangeAux : List (Finset Flashcard) → Nat → Option Nat → Option Nat →
    Option Nat × Option Nat
  | [], _, mn, mx => (mn, mx)
  | s :: rest, i, mn, mx =>
    if 0 < s.card then
      rangeAux rest (i + 1) (if mn.isNone then some i else mn) (some i)
    else
      rangeAux rest (i + 1) mn mx

/-- `getBucketRange` (`algorithm.ts` lines 17-33): single left-to-right
scan recording the first and last index with a non-empty set; returns a
pair only when both were set. -/
def getBucketRange (buckets : List (Finset Flashcard)) :
    Option (Nat × Nat) :=
  match rangeAux buckets 0 none none with
  | (some mn, some mx) => some (mn, mx)
  | _ => none

/-- One `result.add(card)` step of the copy loop in `practice`. -/
def addCard (c : Flashcard) (r : Finset Flashcard) : Finset Flashcard :=
  insert c r

instance : LeftCommutative addCard :=
  ⟨fun a b s => Finset.Insert.comm a b s⟩

/-- The element-by-element copy `buckets[day].forEach(card =>
result.add(card))` of `practice` into a freshly created set. -/
def copySet (s : Finset Flashcard) : Finset Flashcard :=
  Multiset.foldr addCard ∅ s.val

/-- `practice` (`algorithm.ts` lines 35-41): when `day` indexes into the
array (`day < buckets.length` and `buckets[day]` is defined, i.e.
`0 ≤ day`), copy that bucket into a new set; otherwise return the empty
set. -/
def practice (buckets : List (Finset Flashcard)) (day : Int) :
    Finset Flashcard :=
  if 0 ≤ day ∧ day < (buckets.length : Int) then
    copySet (buckets.getD day.toNat ∅)
  else ∅

/-- The record returned by `computeProgress`.  JS numbers are modelled as
`Nat` for the two counts and as `ℚ` for the percentage. -/
structure Progress where
  totalCards : Nat
  masteredCards : Nat
  masteryPercentage : ℚ
deriving DecidableEq

/-- `parseFloat(x.toFixed(2))`: round to two decimal places (nearest, with
the tie at half a hundredth rounded up, as for the non-negative values
arising here). -/
def round2 (x : ℚ) : ℚ := (round (x * 100) : ℚ) / 100

/-- `computeProgress` (`algorithm.ts` lines 80-98): one pass over the map
accumulating the total card count and the count in buckets with index
`≥ 3`; the percentage is `(mastered / total) * 100` rounded to two
decimals, `0` when there are no cards.  The `history` argument is accepted
and never read. -/
def computeProgress (buckets : BucketMap)
    (history : List (Flashcard × AnswerDifficulty)) : Progress :=
  let acc := buckets.foldl
    (fun (a : Nat × Nat) p =>
      (a.1 + p.2.card, if 3 ≤ p.1 then a.2 + p.2.card else a.2))
    (0, 0)
  let pct : ℚ := if 0 < acc.1 then ((acc.2 : ℚ) / (acc.1 : ℚ)) * 100 else 0
  { totalCards := acc.1
    masteredCards := acc.2
    masteryPercentage := round2 pct }

/-- Concrete flashcards used by witnesses, mirroring the test helper
`createFlashcard(front, back, hint = "", tags = [])`. -/
def cardA : Flashcard := ⟨"Q1", "A1", "", []⟩

def cardB : Flashcard := ⟨"Q2", "A2", "", []⟩

def cardC : Flashcard := ⟨"Q3", "A3", "", []⟩

/-! ### Membership lemmas -/

@[simp]
theorem memAt_nil (b : Nat) (c : Flashcard) : memAt [] b c ↔ False := by
  simp [memAt]

@[simp]
theorem memAt_cons {k : Nat} {s : Finset Flashcard} {rest : BucketMap}
    {b : Nat} {c : Flashcard} :
    memAt ((k, s) :: rest) b c ↔ (k = b ∧ c ∈ s) ∨ memAt rest b c := by
  constructor
  · rintro ⟨p, hp, hb, hc⟩
    rcases List.mem_cons.mp hp with h | h
    · cases h; exact Or.inl ⟨hb, hc⟩
    · exact Or.inr ⟨p, h, hb, hc⟩
  · rintro (⟨hb, hc⟩ | ⟨p, hp, hb, hc⟩)
    · exact ⟨(k, s), List.mem_cons_self _ _, hb, hc⟩
    · exact ⟨p, List.mem_cons_of_mem _ hp, hb, hc⟩

theorem singleMembership_of_cons {k : Nat} {s : Finset Flashcard}
    {rest : BucketMap} (h : singleMembership ((k, s) :: rest)) :
    singleMembership rest := fun b₁ b₂ c h1 h2 =>
  h b₁ b₂ c (memAt_cons.mpr (Or.inr h1)) (memAt_cons.mpr (Or.inr h2))

theorem wf_cons {k : Nat} {s : Finset Flashcard} {rest : BucketMap}
    (h : wf ((k, s) :: rest)) : k ∉ rest.map Prod.fst ∧ wf rest := by
  simpa [wf] using h

/-! ### Lemmas about the removal loop of `update` -/

theorem removeCard_keys (M : BucketMap) (c : Flashcard) :
    (removeCard M c).1.map Prod.fst = M.map Prod.fst := by
  induction M with
  | nil => rfl
  | cons p rest ih =>
    obtain ⟨b, s⟩ := p
    by_cases h : c ∈ s <;> simp [removeCard, h, ih]

theorem removeCard_frame {c c' : Flashcard} (h : c' ≠ c) (M : BucketMap)
    (b : Nat) : memAt (removeCard M c).1 b c' ↔ memAt M b c' := by
  induction M with
  | nil => simp [removeCard]
  | cons p rest ih =>
    obtain ⟨k, s⟩ := p
    by_cases hc : c ∈ s
    · simp [removeCard, hc, Finset.mem_erase, h]
    · simp [removeCard, hc, ih]

theorem removeCard_snd_eq_some {k : Nat} {c : Flashcard} :
    ∀ M : BucketMap, singleMembership M → memAt M k c →
      (removeCard M c).2 = some k
  | [], _, hmem => by simp at hmem
  | (b, s) :: rest, hsm, hmem => by
    by_cases hc : c ∈ s
    · simp only [removeCard, if_pos hc, Option.some.injEq]
      exact hsm b k c (memAt_cons.mpr (Or.inl ⟨rfl, hc⟩)) hmem
    · simp only [removeCard, if_neg hc]
      refine removeCard_snd_eq_some rest (singleMembership_of_cons hsm) ?_
      rcases memAt_cons.mp hmem with ⟨_, hcs⟩ | h
      · exact absurd hcs hc
      · exact h

theorem removeCard_of_not_mem {c : Flashcard} :
    ∀ M : BucketMap, (∀ p ∈ M, c ∉ p.2) → removeCard M c = (M, none)
  | [], _ => rfl
  | (b, s) :: rest, h => by
    have hc : c ∉ s := h (b, s) (List.mem_cons_self _ _)
    have ih := removeCard_of_not_mem rest fun p hp => h p (List.mem_cons_of_mem _ hp)
    simp [removeCard, hc, ih]

theorem not_memAt_removeCard {c : Flashcard} :
    ∀ M : BucketMap, wf M → singleMembership M →
      ∀ b, ¬ memAt (removeCard M c).1 b c
  | [], _, _, b => by simp [removeCard]
  | (k, s) :: rest, hwf, hsm, b => by
    by_cases hc : c ∈ s
    · have heq : (removeCard ((k, s) :: rest) c).1 = (k, s.erase c) :: rest := by
        simp [removeCard, hc]
      rw [heq]
      intro hmem
      rcases memAt_cons.mp hmem with ⟨_, hcs⟩ | h
      · exact Finset.not_mem_erase c s hcs
      · obtain ⟨p, hp, hpb, hpc⟩ := h
        have hpk : p.1 = k :=
          hsm p.1 k c ⟨p, List.mem_cons_of_mem _ hp, rfl, hpc⟩
            (memAt_cons.mpr (Or.inl ⟨rfl, hc⟩))
        exact (wf_cons hwf).1 (hpk ▸ List.mem_map_of_mem Prod.fst hp)
    · have heq : (removeCard ((k, s) :: rest) c).1
          = (k, s) :: (removeCard rest c).1 := by
        simp [removeCard, hc]
      rw [heq]
      intro hmem
      rcases memAt_cons.mp hmem with ⟨_, hcs⟩ | h
      · exact hc hcs
      · exact not_memAt_removeCard rest (wf_cons hwf).2
          (singleMembership_of_cons hsm) b h

/-! ### Lemmas about the insertion step of `update` -/

theorem memAt_insertCard_self (b : Nat) (c : Flashcard) :
    ∀ M : BucketMap, memAt (insertCard M b c) b c
  | [] => by simp [insertCard]
  | (k, s) :: rest => by
    by_cases hk : k = b
    · subst hk
      simp [insertCard]
    · simp only [insertCard, if_neg hk]
      exact memAt_cons.mpr (Or.inr (memAt_insertCard_self b c rest))

theorem memAt_insertCard_of_ne {c c' : Flashcard} (h : c' ≠ c) (b b' : Nat) :
    ∀ M : BucketMap, memAt (insertCard M b c) b' c' ↔ memAt M b' c'
  | [] => by simp [insertCard, h]
  | (k, s) :: rest => by
    by_cases hk : k = b
    · subst hk
      simp [insertCard, Finset.mem_insert, h]
    · simp [insertCard, hk, memAt_insertCard_of_ne h b b' rest]

theorem memAt_insertCard_other {c : Flashcard} {b b' : Nat} (h : b' ≠ b) :
    ∀ M : BucketMap, memAt (insertCard M b c) b' c ↔ memAt M b' c
  | [] => by simp [insertCard, Ne.symm h]
  | (k, s) :: rest => by
    by_cases hk : k = b
    · subst hk
      simp [insertCard, Ne.symm h]
    · simp [insertCard, hk, memAt_insertCard_other h rest]

instance decidableMemAt (M : BucketMap) (b : Nat) (c : Flashcard) :
    Decidable (memAt M b c) := by
  unfold memAt
  exact List.decidableBEx _ M

theorem update_eq (M : BucketMap) (c : Flashcard) (d : AnswerDifficulty) :
    update M c d
      = insertCard (removeCard M c).1
          (newIdx ((removeCard M c).2.getD 0) d) c := rfl

theorem singleMembership_nil : singleMembership [] :=
  fun b₁ _ c h _ => absurd h (by simp)

theorem singleMembership_single (k : Nat) (s : Finset Flashcard) :
    singleMembership [(k, s)] := fun b₁ b₂ c h1 h2 => by
  rcases memAt_cons.mp h1 with ⟨hb1, _⟩ | h1'
  · rcases memAt_cons.mp h2 with ⟨hb2, _⟩ | h2'
    · rw [← hb1, ← hb2]
    · simp at h2'
  · simp at h1'

theorem removeCard_snd_mem_keys {c : Flashcard} :
    ∀ (M : BucketMap) (k : Nat), (removeCard M c).2 = some k →
      k ∈ M.map Prod.fst
  | [], k, h => by simp [removeCard] at h
  | (b, s) :: rest, k, h => by
    by_cases hc : c ∈ s
    · simp only [removeCard, if_pos hc, Option.some.injEq] at h
      simp [h]
    · simp only [removeCard, if_neg hc] at h
      exact List.mem_cons_of_mem _ (removeCard_snd_mem_keys rest k h)

theorem update_hard_eq_self (c : Flashcard) (k : Nat) :
    ∀ M : BucketMap, wf M → singleMembership M → memAt M k c →
      update M c .Hard = M
  | [], _, _, hmem => by simp at hmem
  | (b, s) :: rest, hwf, hsm, hmem => by
    rw [update_eq]
    by_cases hc : c ∈ s
    · have hrc : removeCard ((b, s) :: rest) c
          = ((b, s.erase c) :: rest, some b) := by
        simp [removeCard, hc]
      rw [hrc]
      simp [newIdx, insertCard, Finset.insert_erase hc]
    · have hrest : memAt rest k c := by
        rcases memAt_cons.mp hmem with ⟨_, hcs⟩ | h
        · exact absurd hcs hc
        · exact h
      have hsome : (removeCard rest c).2 = some k :=
        removeCard_snd_eq_some rest (singleMembership_of_cons hsm) hrest
      have hbk : b ≠ k := by
        intro hbk
        exact (wf_cons hwf).1
          (hbk ▸ removeCard_snd_mem_keys rest k hsome)
      have hrc : removeCard ((b, s) :: rest) c
          = ((b, s) :: (removeCard rest c).1, (removeCard rest c).2) := by
        simp [removeCard, hc]
      rw [hrc]
      simp only [hsome, Option.getD_some, newIdx, insertCard, if_neg hbk]
      have ih := update_hard_eq_self c k rest (wf_cons hwf).2
        (singleMembership_of_cons hsm) hrest
      rw [update_eq, hsome] at ih
      simp only [Option.getD_some, newIdx] at ih
      rw [ih]

/-! ### Claim theorems about `update` -/

/-- C1: for a `BucketMap` satisfying the at-most-one-bucket invariant,
`update M c d` places `c` in bucket `newIdx k d` where `k` is the bucket
currently holding `c` (0 when `c` is unseen, not an error), with
`newIdx k Wrong = 0`, `newIdx k Hard = k`, `newIdx k Easy = k + 1`, and
`c` ends up in no other bucket (it is removed from its old bucket first). -/
theorem update_places_card (M : BucketMap) (c : Flashcard)
    (d : AnswerDifficulty) (k : Nat) (hwf : wf M)
    (hsm : singleMembership M)
    (hk : memAt M k c ∨ (k = 0 ∧ ∀ p ∈ M, c ∉ p.2)) :
    memAt (update M c d) (newIdx k d) c ∧
      ∀ b, b ≠ newIdx k d → ¬ memAt (update M c d) b c := by
  rcases hk with hmem | ⟨hk0, hnone⟩
  · have hsome : (removeCard M c).2 = some k :=
      removeCard_snd_eq_some M hsm hmem
    rw [update_eq, hsome]
    simp only [Option.getD_some]
    refine ⟨memAt_insertCard_self _ _ _, fun b hb hmem' => ?_⟩
    rw [memAt_insertCard_other hb] at hmem'
    exact not_memAt_removeCard M hwf hsm b hmem'
  · subst hk0
    have hrem : removeCard M c = (M, none) := removeCard_of_not_mem M hnone
    rw [update_eq, hrem]
    simp only [Option.getD_none]
    refine ⟨memAt_insertCard_self _ _ _, fun b hb hmem' => ?_⟩
    rw [memAt_insertCard_other hb] at hmem'
    obtain ⟨p, hp, hpb, hpc⟩ := hmem'
    exact hnone p hp hpc

/-- Witness for C1: on the empty map, `update` with `Easy` treats the card
as coming from bucket 0 and places it in bucket 1 only. -/
theorem update_places_card_witness :
    memAt (update [] cardB .Easy) 1 cardB ∧
      ¬ memAt (update [] cardB .Easy) 0 cardB :=
  ⟨(update_places_card [] cardB .Easy 0 (by simp [wf]) singleMembership_nil
      (Or.inr ⟨rfl, by simp⟩)).1,
   (update_places_card [] cardB .Easy 0 (by simp [wf]) singleMembership_nil
      (Or.inr ⟨rfl, by simp⟩)).2 0 (by decide)⟩

/-- C2: `update` preserves the at-most-one-bucket invariant, and after the
call the practiced card occupies exactly one bucket (existence here; with
the preserved invariant, uniqueness follows). -/
theorem update_preserves_single_membership (M : BucketMap) (c : Flashcard)
    (d : AnswerDifficulty) (hwf : wf M) (hsm : singleMembership M) :
    singleMembership (update M c d) ∧ ∃ b, memAt (update M c d) b c := by
  rw [update_eq]
  constructor
  · intro b₁ b₂ c₀ h1 h2
    by_cases hcc : c₀ = c
    · subst hcc
      have hb : ∀ b,
          memAt (insertCard (removeCard M c₀).1
            (newIdx ((removeCard M c₀).2.getD 0) d) c₀) b c₀ →
          b = newIdx ((removeCard M c₀).2.getD 0) d := by
        intro b hb
        by_contra hne
        rw [memAt_insertCard_other hne] at hb
        exact not_memAt_removeCard M hwf hsm b hb
      rw [hb b₁ h1, hb b₂ h2]
    · rw [memAt_insertCard_of_ne hcc _ _ _, removeCard_frame hcc] at h1 h2
      exact hsm b₁ b₂ c₀ h1 h2
  · exact ⟨_, memAt_insertCard_self _ _ _⟩

/-- Witness for C2 at a concrete one-entry map. -/
theorem update_preserves_single_membership_witness :
    singleMembership (update [(1, {cardA})] cardA .Easy) ∧
      ∃ b, memAt (update [(1, {cardA})] cardA .Easy) b cardA :=
  update_preserves_single_membership [(1, {cardA})] cardA .Easy
    (by simp [wf]) (singleMembership_single 1 {cardA})

/-- C3: `update M c d` changes the bucket membership of no flashcard other
than `c`: any distinct card is in bucket `b` afterwards iff it was
before. -/
theorem update_frame (M : BucketMap) (c c' : Flashcard)
    (d : AnswerDifficulty) (b : Nat) (h : c' ≠ c) :
    memAt (update M c d) b c' ↔ memAt M b c' := by
  rw [update_eq, memAt_insertCard_of_ne h _ _ _, removeCard_frame h]

/-- Witness for C3 on the spec scenario `map = {1: {cardA}}`,
`recordOutcome(map, cardA, Wrong)`: an unrelated card's membership is
untouched, while cardA itself ends up in bucket 0 only, bucket 1 now
empty. -/
theorem update_frame_witness :
    (memAt (update [(1, {cardA})] cardA .Wrong) 0 cardB ↔
      memAt [(1, {cardA})] 0 cardB) ∧
    memAt (update [(1, {cardA})] cardA .Wrong) 0 cardA ∧
    ¬ memAt (update [(1, {cardA})] cardA .Wrong) 1 cardA ∧
    findSet (update [(1, {cardA})] cardA .Wrong) 1 = some ∅ :=
  ⟨update_frame [(1, {cardA})] cardA cardB .Wrong 0 (by decide),
   by decide, by decide, by decide⟩

/-- C9: a separately created flashcard with the same `front`, `back`,
`hint` and `tags` fields passes the `cards.has` test of `update`: the
search loop locates the bucket `k` of the logically identical stored card,
and `update` moves the card from `k` (rather than treating it as unseen
and defaulting to bucket 0). -/
theorem update_finds_structurally_equal (M : BucketMap) (c c' : Flashcard)
    (k : Nat) (d : AnswerDifficulty) (hsm : singleMembership M)
    (hf : c'.front = c.front) (hb : c'.back = c.back)
    (hh : c'.hint = c.hint) (ht : c'.tags = c.tags)
    (hmem : memAt M k c) :
    (removeCard M c').2 = some k ∧ memAt (update M c' d) (newIdx k d) c' := by
  have hcc : c' = c := by
    cases c
    cases c'
    simp_all
  subst hcc
  have hsome : (removeCard M c').2 = some k :=
    removeCard_snd_eq_some M hsm hmem
  refine ⟨hsome, ?_⟩
  rw [update_eq, hsome]
  exact memAt_insertCard_self _ _ _

/-- Witness for C9, mirroring the test: the map holds a card created as
`createFlashcard("Q1", "A1")` in bucket 1; a second, separately written
card with the same fields is found there and promoted to bucket 2 by
`Easy`. -/
theorem update_finds_structurally_equal_witness :
    (removeCard [(1, {cardA})] ⟨"Q1", "A1", "", []⟩).2 = some 1 ∧
      memAt (update [(1, {cardA})] ⟨"Q1", "A1", "", []⟩ .Easy) 2
        ⟨"Q1", "A1", "", []⟩ :=
  update_finds_structurally_equal [(1, {cardA})] cardA ⟨"Q1", "A1", "", []⟩
    1 .Easy (singleMembership_single 1 {cardA}) rfl rfl rfl rfl (by decide)

/-- C10: reporting `Hard` for a card already present in the map is an
identity operation on the bucket assignment: the map is unchanged (the
card is deleted from and re-inserted into the same bucket). -/
theorem update_hard_identity (M : BucketMap) (c : Flashcard) (k : Nat)
    (hwf : wf M) (hsm : singleMembership M) (hmem : memAt M k c) :
    update M c .Hard = M :=
  update_hard_eq_self c k M hwf hsm hmem

/-- Witness for C10 at a concrete one-entry map. -/
theorem update_hard_identity_witness :
    update [(1, {cardA})] cardA .Hard = [(1, {cardA})] :=
  update_hard_identity [(1, {cardA})] cardA 1 (by simp [wf])
    (singleMembership_single 1 {cardA}) (by decide)

/-! ### Lemmas about `toBucketSets` -/

theorem getD_set_self {α : Type _} :
    ∀ (arr : List α) (i : Nat) (a d : α), i < arr.length →
      (arr.set i a).getD i d = a
  | [], i, _, _, h => absurd h (by simp)
  | _ :: _, 0, _, _, _ => rfl
  | _ :: xs, i + 1, a, d, h =>
    (List.getD_cons_succ).trans (getD_set_self xs i a d (by simpa using h))

theorem getD_set_ne {α : Type _} :
    ∀ (arr : List α) (i j : Nat) (a d : α), i ≠ j →
      (arr.set i a).getD j d = arr.getD j d
  | [], _, _, _, _, _ => by simp
  | _ :: _, 0, 0, _, _, h => absurd rfl h
  | _ :: _, 0, _ + 1, _, _, _ => by simp
  | _ :: _, _ + 1, 0, _, _, _ => by simp
  | x :: xs, i + 1, j + 1, a, d, h => by
    have hij : i ≠ j := fun hh => h (by rw [hh])
    simpa using getD_set_ne xs i j a d hij

theorem foldl_max_init_le :
    ∀ (M : BucketMap) (a : Nat), a ≤ M.foldl (fun x p => max x p.1) a
  | [], _ => le_refl _
  | p :: rest, a =>
    le_trans (le_max_left a p.1) (foldl_max_init_le rest (max a p.1))

theorem fst_le_foldl_max :
    ∀ (M : BucketMap) (a : Nat), ∀ p ∈ M, p.1 ≤ M.foldl (fun x q => max x q.1) a
  | [], _, _, hp => absurd hp (by simp)
  | q :: rest, a, p, hp => by
    rcases List.mem_cons.mp hp with h | h
    · subst h
      exact le_trans (le_max_right a p.1) (foldl_max_init_le rest _)
    · exact fst_le_foldl_max rest (max a q.1) p h

theorem fst_le_maxKey {M : BucketMap} {p : Nat × Finset Flashcard}
    (hp : p ∈ M) : p.1 ≤ maxKey M :=
  fst_le_foldl_max M 0 p hp

theorem findSet_eq_none {i : Nat} :
    ∀ M : BucketMap, i ∉ M.map Prod.fst → findSet M i = none
  | [], _ => rfl
  | (k, s) :: rest, h => by
    have hk : k ≠ i := fun hh => h (by simp [hh])
    have hr : i ∉ rest.map Prod.fst := fun hh => h (by simp [hh])
    simp [findSet, hk, findSet_eq_none rest hr]

theorem setFold_length :
    ∀ (M : BucketMap) (arr : List (Finset Flashcard)),
      (M.foldl (fun a p => a.set p.1 p.2) arr).length = arr.length
  | [], _ => rfl
  | p :: rest, arr => (setFold_length rest _).trans (by simp)

theorem setFold_getD :
    ∀ (M : BucketMap) (arr : List (Finset Flashcard)),
      (M.map Prod.fst).Nodup → (∀ p ∈ M, p.1 < arr.length) →
      ∀ i, i < arr.length →
        (M.foldl (fun a p => a.set p.1 p.2) arr).getD i ∅
          = (findSet M i).getD (arr.getD i ∅)
  | [], _, _, _, _, _ => rfl
  | (k, s) :: rest, arr, hnd, hlt, i, hi => by
    have hnd2 : (k :: rest.map Prod.fst).Nodup := by
      rw [List.map_cons] at hnd
      exact hnd
    have hnd' : (rest.map Prod.fst).Nodup := (List.nodup_cons.mp hnd2).2
    have hk : k ∉ rest.map Prod.fst := (List.nodup_cons.mp hnd2).1
    have hlt' : ∀ p ∈ rest, p.1 < (arr.set k s).length := by
      intro p hp
      simpa using hlt p (List.mem_cons_of_mem _ hp)
    have ih := setFold_getD rest (arr.set k s) hnd' hlt' i (by simpa using hi)
    by_cases hki : k = i
    · subst hki
      have hnone : findSet rest k = none := findSet_eq_none rest hk
      simp only [List.foldl_cons] at *
      rw [ih, hnone, findSet, if_pos rfl]
      simp only [Option.getD_none, Option.getD_some]
      exact getD_set_self arr k s ∅ (hlt (k, s) (List.mem_cons_self _ _))
    · simp only [List.foldl_cons] at *
      rw [ih, findSet, if_neg hki, getD_set_ne arr k i s ∅ hki]

/-- C4: `toBucketSets M` has length `maxKey M + 1`; at every index `i` in
range it holds `M.get(i)` when `i` is a key of `M` and the empty set
otherwise (no gaps); on the empty map the result is exactly one empty
set. -/
theorem toBucketSets_spec (M : BucketMap) (hwf : wf M) :
    (toBucketSets M).length = maxKey M + 1 ∧
      (∀ i, i ≤ maxKey M →
        (toBucketSets M).getD i ∅ = (findSet M i).getD ∅) ∧
      toBucketSets ([] : BucketMap) = [∅] := by
  have hlt : ∀ p ∈ M, p.1 < (List.replicate (maxKey M + 1)
      (∅ : Finset Flashcard)).length := by
    intro p hp
    simpa using Nat.lt_succ_of_le (fst_le_maxKey hp)
  refine ⟨?_, fun i hi => ?_, rfl⟩
  · rw [toBucketSets, setFold_length]
    simp
  · rw [toBucketSets, setFold_getD M _ hwf hlt i (by simpa using Nat.lt_succ_of_le hi)]
    simp

/-- Witness for C4: a sparse two-entry map with keys 0 and 2 flattens to
three sets with an empty set filling the gap at index 1. -/
theorem toBucketSets_spec_witness :
    (toBucketSets [(0, {cardA}), (2, {cardB})]).length = 3 ∧
      (toBucketSets [(0, {cardA}), (2, {cardB})]).getD 1 ∅ = ∅ :=
  ⟨(toBucketSets_spec [(0, {cardA}), (2, {cardB})] (by simp [wf])).1,
   (toBucketSets_spec [(0, {cardA}), (2, {cardB})] (by simp [wf])).2.1 1
      (by decide)⟩

/-! ### Lemmas about `getBucketRange` -/

theorem getBucketRange_def (l : List (Finset Flashcard)) :
    getBucketRange l = match rangeAux l 0 none none with
      | (some mn, some mx) => some (mn, mx)
      | _ => none := rfl

theorem mn_step_eq (mn : Option Nat) (i : Nat) :
    (if mn.isNone then some i else mn) = some (mn.getD i) := by
  cases mn <;> rfl

theorem rangeAux_append (s : Finset Flashcard) :
    ∀ (l : List (Finset Flashcard)) (i : Nat) (mn mx : Option Nat),
      rangeAux (l ++ [s]) i mn mx =
        if 0 < s.card then
          (some ((rangeAux l i mn mx).1.getD (i + l.length)),
            some (i + l.length))
        else rangeAux l i mn mx
  | [], i, mn, mx => by
    simp only [List.nil_append, rangeAux, List.length_nil, Nat.add_zero]
    by_cases hs : 0 < s.card
    · simp only [if_pos hs]
      rw [mn_step_eq]
    · simp only [if_neg hs]
  | t :: l, i, mn, mx => by
    have harith : i + 1 + l.length = i + (t :: l).length := by
      simp only [List.length_cons]
      omega
    by_cases ht : 0 < t.card
    · simp only [List.cons_append, rangeAux, if_pos ht, List.append_eq]
      rw [rangeAux_append s l (i + 1) _ _, harith]
    · simp only [List.cons_append, rangeAux, if_neg ht, List.append_eq]
      rw [rangeAux_append s l (i + 1) mn mx, harith]

theorem rangeAux_shape (l : List (Finset Flashcard)) :
    rangeAux l 0 none none = (none, none) ∨
      ∃ a b, rangeAux l 0 none none = (some a, some b) := by
  induction l using List.reverseRecOn with
  | nil => exact Or.inl rfl
  | append_singleton l s ih =>
    rw [rangeAux_append]
    by_cases hs : 0 < s.card
    · exact Or.inr ⟨_, _, by rw [if_pos hs]⟩
    · rw [if_neg hs]
      exact ih

theorem getBucketRange_some_inv {l : List (Finset Flashcard)}
    {mn mx : Nat} (h : getBucketRange l = some (mn, mx)) :
    rangeAux l 0 none none = (some mn, some mx) := by
  rcases rangeAux_shape l with h0 | ⟨a, b, hab⟩
  · rw [getBucketRange_def, h0] at h
    cases h
  · rw [getBucketRange_def, hab] at h
    simp only [Option.some.injEq, Prod.mk.injEq] at h
    rw [hab, h.1, h.2]

theorem getBucketRange_none_inv {l : List (Finset Flashcard)}
    (h : getBucketRange l = none) :
    rangeAux l 0 none none = (none, none) := by
  rcases rangeAux_shape l with h0 | ⟨a, b, hab⟩
  · exact h0
  · rw [getBucketRange_def, hab] at h
    cases h

theorem getD_append_fst {α : Type _} :
    ∀ (l l' : List α) (j : Nat) (d : α), j < l.length →
      (l ++ l').getD j d = l.getD j d
  | [], _, _, _, h => absurd h (by simp)
  | _ :: _, _, 0, _, _ => rfl
  | _ :: xs, l', j + 1, d, h => by
    simpa using getD_append_fst xs l' j d (by simpa using h)

theorem getD_append_snoc {α : Type _} :
    ∀ (l : List α) (s d : α), (l ++ [s]).getD l.length d = s
  | [], _, _ => rfl
  | _ :: xs, s, d => by simp [getD_append_snoc xs s d]

theorem getD_empty_of_forall :
    ∀ (l : List (Finset Flashcard)) (j : Nat), (∀ t ∈ l, t = ∅) →
      l.getD j ∅ = ∅
  | [], j, _ => by simp
  | x :: _, 0, h => by simpa using h x (List.mem_cons_self _ _)
  | _ :: xs, j + 1, h => by
    simpa using getD_empty_of_forall xs j fun t ht => h t (List.mem_cons_of_mem _ ht)

theorem getBucketRange_eq_none_iff (l : List (Finset Flashcard)) :
    getBucketRange l = none ↔ ∀ s ∈ l, s = ∅ := by
  induction l using List.reverseRecOn with
  | nil => simp [getBucketRange, rangeAux]
  | append_singleton l s ih =>
    by_cases hs : 0 < s.card
    · have hr : rangeAux (l ++ [s]) 0 none none
          = (some ((rangeAux l 0 none none).1.getD l.length), some l.length) := by
        rw [rangeAux_append, if_pos hs]
        simp
      have hsem : s ≠ ∅ := by
        intro hse
        rw [hse] at hs
        simp at hs
      constructor
      · intro h
        rw [getBucketRange_def, hr] at h
        cases h
      · intro h
        exact absurd (h s (by simp)) hsem
    · have hse : s = ∅ := by
        rw [← Finset.card_eq_zero]
        omega
      have hr : rangeAux (l ++ [s]) 0 none none = rangeAux l 0 none none := by
        rw [rangeAux_append, if_neg hs]
      rw [getBucketRange_def, hr, ← getBucketRange_def, ih, hse]
      constructor
      · intro h t ht
        rcases List.mem_append.mp ht with h' | h'
        · exact h t h'
        · simpa using h'
      · intro h t ht
        exact h t (List.mem_append.mpr (Or.inl ht))

theorem getBucketRange_some_spec :
    ∀ (l : List (Finset Flashcard)) (mn mx : Nat),
      getBucketRange l = some (mn, mx) →
        mn ≤ mx ∧ mx < l.length ∧ l.getD mn ∅ ≠ ∅ ∧ l.getD mx ∅ ≠ ∅ ∧
          (∀ j, j < mn → l.getD j ∅ = ∅) ∧
          (∀ j, mx < j → j < l.length → l.getD j ∅ = ∅) := by
  intro l
  induction l using List.reverseRecOn with
  | nil =>
    intro mn mx h
    simp [getBucketRange, rangeAux] at h
  | append_singleton l s ih =>
    intro mn mx h
    by_cases hs : 0 < s.card
    · have hsne : s ≠ ∅ := Finset.Nonempty.ne_empty (Finset.card_pos.mp hs)
      have hr : rangeAux (l ++ [s]) 0 none none
          = (some ((rangeAux l 0 none none).1.getD l.length), some l.length) := by
        rw [rangeAux_append, if_pos hs]
        simp
      rw [getBucketRange_def, hr] at h
      simp only [Option.some.injEq, Prod.mk.injEq] at h
      obtain ⟨hmn, hmx⟩ := h
      rcases rangeAux_shape l with h0 | ⟨a, b, hab⟩
      · have hempty : ∀ t ∈ l, t = ∅ :=
          (getBucketRange_eq_none_iff l).mp (by rw [getBucketRange_def, h0])
        rw [h0] at hmn
        simp only [Option.getD_none] at hmn
        refine ⟨?_, ?_, ?_, ?_, ?_, ?_⟩
        · omega
        · simp [← hmx]
        · rw [← hmn, getD_append_snoc]
          exact hsne
        · rw [← hmx, getD_append_snoc]
          exact hsne
        · intro j hj
          rw [← hmn] at hj
          rw [getD_append_fst l [s] j ∅ hj]
          exact getD_empty_of_forall l j hempty
        · intro j hj1 hj2
          simp only [List.length_append, List.length_singleton] at hj2
          omega
      · have hl : getBucketRange l = some (a, b) := by
          rw [getBucketRange_def, hab]
        obtain ⟨iha, ihb, ihc, ihd, ihe, ihf⟩ := ih a b hl
        rw [hab] at hmn
        simp only [Option.getD_some] at hmn
        refine ⟨?_, ?_, ?_, ?_, ?_, ?_⟩
        · omega
        · simp [← hmx]
        · rw [← hmn, getD_append_fst l [s] a ∅ (by omega)]
          exact ihc
        · rw [← hmx, getD_append_snoc]
          exact hsne
        · intro j hj
          rw [← hmn] at hj
          rw [getD_append_fst l [s] j ∅ (by omega)]
          exact ihe j hj
        · intro j hj1 hj2
          simp only [List.length_append, List.length_singleton] at hj2
          omega
    · have hse : s = ∅ := by
        rw [← Finset.card_eq_zero]
        omega
      have hr : rangeAux (l ++ [s]) 0 none none = rangeAux l 0 none none := by
        rw [rangeAux_append, if_neg hs]
      have hl : getBucketRange l = some (mn, mx) := by
        rw [getBucketRange_def, ← hr, ← getBucketRange_def]
        exact h
      obtain ⟨iha, ihb, ihc, ihd, ihe, ihf⟩ := ih mn mx hl
      refine ⟨iha, ?_, ?_, ?_, ?_, ?_⟩
      · simp only [List.length_append, List.length_singleton]
        omega
      · rw [getD_append_fst l [s] mn ∅ (by omega)]
        exact ihc
      · rw [getD_append_fst l [s] mx ∅ (by omega)]
        exact ihd
      · intro j hj
        rw [getD_append_fst l [s] j ∅ (by omega)]
        exact ihe j hj
      · intro j hj1 hj2
        simp only [List.length_append, List.length_singleton] at hj2
        rcases Nat.lt_or_ge j l.length with hjl | hjl
        · rw [getD_append_fst l [s] j ∅ hjl]
          exact ihf j hj1 hjl
        · have hjeq : j = l.length := by omega
          rw [hjeq, getD_append_snoc]
          exact hse

/-- C5: `getBucketRange` returns `none` exactly when every set in the
array is empty; otherwise it returns `(minBucket, maxBucket)` where
`minBucket` is the least index with a non-empty set and `maxBucket` the
greatest, so `minBucket ≤ maxBucket` and both indexed sets are
non-empty. -/
theorem getBucketRange_spec (l : List (Finset Flashcard)) :
    (getBucketRange l = none ↔ ∀ s ∈ l, s = ∅) ∧
      ∀ mn mx, getBucketRange l = some (mn, mx) →
        mn ≤ mx ∧ mx < l.length ∧ l.getD mn ∅ ≠ ∅ ∧ l.getD mx ∅ ≠ ∅ ∧
          (∀ j, j < mn → l.getD j ∅ = ∅) ∧
          (∀ j, mx < j → j < l.length → l.getD j ∅ = ∅) :=
  ⟨getBucketRange_eq_none_iff l, fun mn mx h => getBucketRange_some_spec l mn mx h⟩

/-- Witness for C5: on `[∅, {cardA}, ∅, {cardB}]` the range is `(1, 3)`,
both endpoint sets are non-empty and everything outside `[1, 3]` is
empty. -/
theorem getBucketRange_spec_witness :
    getBucketRange [(∅ : Finset Flashcard), {cardA}, ∅, {cardB}] = some (1, 3) ∧
      (1 ≤ 3 ∧
        3 < ([(∅ : Finset Flashcard), {cardA}, ∅, {cardB}]).length ∧
        ([(∅ : Finset Flashcard), {cardA}, ∅, {cardB}]).getD 1 ∅ ≠ ∅ ∧
        ([(∅ : Finset Flashcard), {cardA}, ∅, {cardB}]).getD 3 ∅ ≠ ∅ ∧
        (∀ j, j < 1 →
          ([(∅ : Finset Flashcard), {cardA}, ∅, {cardB}]).getD j ∅ = ∅) ∧
        (∀ j, 3 < j → j < ([(∅ : Finset Flashcard), {cardA}, ∅, {cardB}]).length →
          ([(∅ : Finset Flashcard), {cardA}, ∅, {cardB}]).getD j ∅ = ∅)) :=
  ⟨by decide,
   (getBucketRange_spec [(∅ : Finset Flashcard), {cardA}, ∅, {cardB}]).2 1 3
      (by decide)⟩

/-! ### Lemmas about `practice` -/

theorem mem_foldr_insert (c : Flashcard) (m : Multiset Flashcard) :
    ∀ init : Finset Flashcard,
      c ∈ Multiset.foldr addCard init m ↔ c ∈ m ∨ c ∈ init := by
  induction m using Multiset.induction_on with
  | empty => simp
  | cons a t ih =>
    intro init
    rw [Multiset.foldr_cons]
    simp only [addCard, Finset.mem_insert, Multiset.mem_cons, ih init]
    tauto

theorem copySet_eq (s : Finset Flashcard) : copySet s = s := by
  ext c
  rw [copySet, mem_foldr_insert]
  simp

/-- C6: `practice buckets day` equals (in membership) the bucket at index
`day` when `0 ≤ day < buckets.length`, and the empty set otherwise —
including negative days and days past the end of the array. -/
theorem practice_spec (buckets : List (Finset Flashcard)) (day : Int) :
    practice buckets day =
      if 0 ≤ day ∧ day < (buckets.length : Int) then
        buckets.getD day.toNat ∅
      else ∅ := by
  rw [practice]
  by_cases h : 0 ≤ day ∧ day < (buckets.length : Int)
  · rw [if_pos h, if_pos h, copySet_eq]
  · rw [if_neg h, if_neg h]

/-! ### Lemmas about `computeProgress` -/

theorem progress_foldl :
    ∀ (M : BucketMap) (t m : Nat),
      M.foldl
        (fun (a : Nat × Nat) p =>
          (a.1 + p.2.card, if 3 ≤ p.1 then a.2 + p.2.card else a.2))
        (t, m)
      = (t + (M.map fun p => p.2.card).sum,
          m + ((M.filter fun p => decide (3 ≤ p.1)).map fun p => p.2.card).sum)
  | [], t, m => by simp
  | p :: rest, t, m => by
    by_cases h3 : 3 ≤ p.1
    · have hd : decide (3 ≤ p.1) = true := by simpa using h3
      simp only [List.foldl_cons, if_pos h3, progress_foldl rest,
        List.map_cons, List.sum_cons, List.filter_cons, hd, if_pos trivial,
        Prod.mk.injEq]
      omega
    · have hd : decide (3 ≤ p.1) = false := by simpa using h3
      simp only [List.foldl_cons, if_neg h3, progress_foldl rest,
        List.map_cons, List.sum_cons, List.filter_cons, hd,
        Bool.false_eq_true, if_false, Prod.mk.injEq, and_true]
      omega

/-- C7: `computeProgress` returns `totalCards` equal to the sum of set
sizes over all buckets, `masteredCards` equal to the sum over buckets with
index ≥ 3, and `masteryPercentage` equal to `(mastered / total) * 100`
rounded to two decimals (0 when `totalCards` is 0); on the empty map it
returns `{0, 0, 0}` and on a map with one card each in buckets 0, 1, 3 it
returns `{3, 1, 33.33}`. -/
theorem computeProgress_spec :
    (∀ (M : BucketMap) (h : List (Flashcard × AnswerDifficulty)),
      computeProgress M h =
        { totalCards := (M.map fun p => p.2.card).sum
          masteredCards :=
            ((M.filter fun p => decide (3 ≤ p.1)).map fun p => p.2.card).sum
          masteryPercentage :=
            if 0 < (M.map fun p => p.2.card).sum then
              round2
                (((((M.filter fun p => decide (3 ≤ p.1)).map
                      fun p => p.2.card).sum : ℚ) /
                  ((M.map fun p => p.2.card).sum : ℚ)) * 100)
            else 0 }) ∧
      computeProgress [] [] = ⟨0, 0, 0⟩ ∧
      computeProgress [(0, {cardA}), (1, {cardB}), (3, {cardC})] []
        = ⟨3, 1, 3333 / 100⟩ := by
  refine ⟨fun M h => ?_, ?_, ?_⟩
  · have hacc := progress_foldl M 0 0
    simp only [Nat.zero_add] at hacc
    rw [computeProgress, hacc]
    by_cases ht : 0 < (M.map fun p => p.2.card).sum
    · simp only [ht, if_pos]
      simp [ht]
      rfl
    · simp [ht, round2]
  · simp [computeProgress, round2]
  · have hround : round ((10000 : ℚ) / 3) = 3333 := by
      rw [round_eq, Int.floor_eq_iff]
      constructor
      · norm_num
      · norm_num
    simp only [computeProgress, List.foldl_cons, List.foldl_nil,
      Finset.card_singleton]
    norm_num [round2, Progress.mk.injEq]
    rw [hround]
    norm_num

/-- C8: `computeProgress` does not depend on its history argument — any
two histories yield the same record (two-run noninterference). -/
theorem computeProgress_ignores_history (M : BucketMap)
    (h₁ h₂ : List (Flashcard × AnswerDifficulty)) :
    computeProgress M h₁ = computeProgress M h₂ := rfl
